import Mathlib

/-!
Verification of the nnabla-nas selection/graph-assembly core against its
natural-language specification.  The Python sources are shallowly embedded:
pure computations become Lean functions over `Nat`/`Int`/`ℚ` and lists,
stateful training steps become explicit state-passing functions, and
fallible code returns `Option`.  Floating-point tensors are modelled over
`ℚ`; the exponential used by softmax is delegated (as in the spec) to the
tensor-compute collaborator and enters as an abstract function argument.
-/

set_option autoImplicit false

namespace NnablaNas

/-! ## Common helpers: Python indexing and the softmax collaborator -/

/-- Python sequence indexing: a negative index `i` refers to position
`len + i`; any index outside `[-len, len)` is an `IndexError`. -/
def pyIndex (len : Nat) (i : Int) : Option Nat :=
  let j : Int := if i < 0 then i + len else i
  if 0 ≤ j ∧ j < len then some j.toNat else none

/-- Python list lookup `l[i]`, with negative-index wrap-around. -/
def pyGet {α : Type} (l : List α) (i : Int) : Option α :=
  match pyIndex l.length i with
  | some j => l[j]?
  | none => none

/-- Truthiness of a Python list: non-empty lists are truthy. -/
def pyTruthy {α : Type} (l : List α) : Bool :=
  !l.isEmpty

/-- Python substring test `s in key` for the architecture-parameter marker
used by `SearchNet.get_arch_parameters` (zoph.py): `True` iff the
characters of `"join"` occur contiguously inside `key`. -/
def containsJoin (key : String) : Bool :=
  decide (List.IsInfix "join".toList key.toList)

/-- Softmax over a flat vector, with the exponential `e` supplied by the
tensor-compute collaborator (the spec delegates softmax numerics). -/
def softmaxWith (e : ℚ → ℚ) (xs : List ℚ) : List ℚ :=
  xs.map (fun x => e x / (xs.map e).sum)

theorem softmaxWith_length (e : ℚ → ℚ) (xs : List ℚ) :
    (softmaxWith e xs).length = xs.length := by
  simp [softmaxWith]

/-! ## common_tools.min_divisible_value (ofa_utils/common_tools.py)

`min_divisible_value(n1, v1)` returns `n1` when `v1 >= n1` and otherwise
runs `while n1 % v1 != 0: v1 -= 1`.  The loop is embedded as structural
recursion on `v1`; for `v1 = 0` the Python code would raise
`ZeroDivisionError`, which is outside the function's intended domain of
positive group counts. -/

/-- The `while n1 % v1 != 0: v1 -= 1` loop of `min_divisible_value`. -/
def findDiv (n1 : Nat) : Nat → Nat
  | 0 => 0
  | v + 1 => if n1 % (v + 1) = 0 then v + 1 else findDiv n1 v

/-- Embedding of `min_divisible_value` (common_tools.py, lines 92-98). -/
def min_divisible_value (n1 v1 : Nat) : Nat :=
  if n1 ≤ v1 then n1 else findDiv n1 v1

theorem findDiv_le (n1 : Nat) : ∀ v, findDiv n1 v ≤ v := by
  intro v
  induction v with
  | zero => simp [findDiv]
  | succ v ih =>
    simp only [findDiv]
    split
    · exact Nat.le_refl _
    · exact Nat.le_trans ih (Nat.le_succ v)

theorem findDiv_dvd (n1 : Nat) : ∀ v, 1 ≤ v → findDiv n1 v ∣ n1 := by
  intro v
  induction v with
  | zero => intro h; cases h
  | succ v ih =>
    intro _
    simp only [findDiv]
    split
    · exact (Nat.dvd_of_mod_eq_zero (by assumption))
    · cases v with
      | zero => simp_all [Nat.mod_one]
      | succ w => exact ih (Nat.succ_le_succ (Nat.zero_le w))

theorem findDiv_maximal (n1 : Nat) :
    ∀ v d, d ∣ n1 → d ≤ v → d ≤ findDiv n1 v := by
  intro v
  induction v with
  | zero => intro d _ hd; simpa [findDiv] using hd
  | succ v ih =>
    intro d hdvd hle
    simp only [findDiv]
    split
    · exact hle
    · rcases Nat.lt_or_ge d (v + 1) with h | h
      · exact ih d hdvd (Nat.lt_succ_iff.mp h)
      · exfalso
        have hde : d = v + 1 := Nat.le_antisymm hle h
        rw [hde] at hdvd
        exact (by assumption : ¬n1 % (v + 1) = 0) (Nat.mod_eq_zero_of_dvd hdvd)

/-- C8: for every channel count `n ≥ 1` and requested group count `g ≥ 1`,
`min_divisible_value n g` is the largest divisor of `n` not exceeding `g`,
it equals `n` itself when `g ≥ n`, and (being a total function) it never
fails: the group count is silently reduced, never rejected. -/
theorem min_divisible_value_spec (n g : Nat) (hn : 1 ≤ n) (hg : 1 ≤ g) :
    min_divisible_value n g ∣ n ∧ min_divisible_value n g ≤ g ∧
      (∀ d, d ∣ n → d ≤ g → d ≤ min_divisible_value n g) ∧
      (n ≤ g → min_divisible_value n g = n) := by
  unfold min_divisible_value
  by_cases h : n ≤ g
  · rw [if_pos h]
    exact ⟨dvd_refl n, h, fun d hd _ => Nat.le_of_dvd hn hd, fun _ => rfl⟩
  · rw [if_neg h]
    exact ⟨findDiv_dvd n g hg, findDiv_le n g,
      fun d hd hdg => findDiv_maximal n g d hd hdg, fun hng => absurd hng h⟩

theorem min_divisible_value_spec_witness :
    1 ≤ 12 ∧ 1 ≤ 8 ∧
      (min_divisible_value 12 8 ∣ 12 ∧ min_divisible_value 12 8 ≤ 8 ∧
        (∀ d, d ∣ 12 → d ≤ 8 → d ≤ min_divisible_value 12 8) ∧
        (12 ≤ 8 → min_divisible_value 12 8 = 12)) :=
  ⟨by decide, by decide, min_divisible_value_spec 12 8 (by decide) (by decide)⟩

/-! ## genotype2subnetlist (contrib/classification/ofa/modules.py)

The static `CANDIDATES` table maps a candidate name to its kernel size and
expansion ratio (`skip_connect` carries neither).  `genotype2subnetlist`
appends `skip_connect` to the explicit candidate list, decodes the genotype
indices into candidate names, derives kernel/expansion lists (with literal
defaults 3 and 4 at skip positions), and computes the depth grouping with a
running counter.  The trailing `assert([d > 1 for d in depth_list])` tests
the truthiness of a list comprehension, so it fails exactly on an empty
depth list; the failure is embedded as `none`. -/

/-- Embedding of the `CANDIDATES` table (modules.py, lines 27-38): name to
(kernel size, expansion ratio). -/
def CANDIDATES : List (String × (Option Nat × Option Nat)) :=
  [("XP3 3x3", (some 3, some 3)), ("XP3 5x5", (some 5, some 3)),
   ("XP3 7x7", (some 7, some 3)), ("XP4 3x3", (some 3, some 4)),
   ("XP4 5x5", (some 5, some 4)), ("XP4 7x7", (some 7, some 4)),
   ("XP6 3x3", (some 3, some 6)), ("XP6 5x5", (some 5, some 6)),
   ("XP6 7x7", (some 7, some 6)), ("skip_connect", (none, none))]

/-- Kernel-size entry for one decoded candidate:
`CANDIDATES[subnet]["ks"] if subnet != "skip_connect" else 3`.
A name absent from the table (Python `KeyError`) yields `none`. -/
def ksOf (subnet : String) : Option Nat :=
  if subnet = "skip_connect" then some 3
  else (CANDIDATES.lookup subnet).bind Prod.fst

/-- Expansion-ratio entry for one decoded candidate:
`CANDIDATES[subnet]["expand_ratio"] if subnet != "skip_connect" else 4`. -/
def expandOf (subnet : String) : Option Nat :=
  if subnet = "skip_connect" then some 4
  else (CANDIDATES.lookup subnet).bind Prod.snd

/-- Decoding `subnet_list = [op_candidates[i] for i in genotype]` after
`op_candidates.append("skip_connect")`; an out-of-range index is a Python
`IndexError`, embedded as `none`. -/
def subnetListOf (opCandidates : List String) (genotype : List Nat) :
    Option (List String) :=
  let ops := opCandidates ++ ["skip_connect"]
  genotype.mapM (fun i => ops[i]?)

/-- The depth-grouping loop of `genotype2subnetlist` (modules.py, lines
62-74), with the running counter `d` passed explicitly; the `i ==
len(subnet_list) - 1` test becomes a test for an empty tail. -/
def depthLoop : List String → Nat → List Nat
  | [], _ => []
  | s :: rest, d =>
    if s = "skip_connect" then
      if 1 < d then d :: depthLoop rest 0 else depthLoop rest d
    else if d = 4 then 4 :: depthLoop rest 1
    else if rest = [] then [d + 1]
    else depthLoop rest (d + 1)

/-- Depth list computed from a decoded `subnet_list` (counter starts at 0). -/
def depthListOf (subnets : List String) : List Nat :=
  depthLoop subnets 0

/-- Embedding of `genotype2subnetlist` (modules.py, lines 54-76).  Returns
the kernel-size, expansion-ratio and depth lists, or `none` when decoding
raises (`IndexError`/`KeyError`) or the final assertion fails. -/
def genotype2subnetlist (opCandidates : List String) (genotype : List Nat) :
    Option (List Nat × List Nat × List Nat) :=
  match subnetListOf opCandidates genotype with
  | none => none
  | some subnets =>
    match subnets.mapM ksOf, subnets.mapM expandOf with
    | some ksList, some expandList =>
      let depthList := depthListOf subnets
      if pyTruthy (depthList.map (fun d => decide (1 < d))) then
        some (ksList, expandList, depthList)
      else none
    | _, _ => none

/-- C6: the depth list is produced by a run-length grouping whose counter
flushes (a) at a `skip_connect` when it exceeds 1 (and is merely carried
past a skip otherwise), (b) at the 4-count cap when the next non-skip pick
is reached, and (c) at the end of the sequence; in particular the sequence
`[3x3, 3x3, 3x3, skip, 5x5, 5x5, 5x5, 5x5, skip]` decodes to the exact
kernel/expansion/depth lists below, with the depth groups `[3, 4]`
flushed at the two skips (after 3 and after the capped 4 picks). -/
theorem genotype2subnetlist_depth_grouping :
    (∀ d rest, 1 < d →
      depthLoop ("skip_connect" :: rest) d = d :: depthLoop rest 0) ∧
    (∀ d rest, d ≤ 1 →
      depthLoop ("skip_connect" :: rest) d = depthLoop rest d) ∧
    (∀ s rest, s ≠ "skip_connect" →
      depthLoop (s :: rest) 4 = 4 :: depthLoop rest 1) ∧
    (∀ s d, s ≠ "skip_connect" → d ≠ 4 → depthLoop [s] d = [d + 1]) ∧
    (∀ s d rest, s ≠ "skip_connect" → d ≠ 4 → rest ≠ [] →
      depthLoop (s :: rest) d = depthLoop rest (d + 1)) ∧
    genotype2subnetlist ["XP3 3x3", "XP3 5x5"] [0, 0, 0, 2, 1, 1, 1, 1, 2] =
      some ([3, 3, 3, 3, 5, 5, 5, 5, 3], [3, 3, 3, 4, 3, 3, 3, 3, 4], [3, 4]) := by
  refine ⟨?_, ?_, ?_, ?_, ?_, ?_⟩
  · intro d rest hd
    simp [depthLoop, hd]
  · intro d rest hd
    have : ¬1 < d := by omega
    simp [depthLoop, this]
  · intro s rest hs
    simp [depthLoop, hs]
  · intro s d hs hd
    simp [depthLoop, hs, hd]
  · intro s d rest hs hd hrest
    simp [depthLoop, hs, hd, hrest]
  · rfl

theorem genotype2subnetlist_depth_grouping_witness :
    1 < 3 ∧ depthLoop ["skip_connect"] 3 = 3 :: depthLoop [] 0 :=
  ⟨by decide, genotype2subnetlist_depth_grouping.1 3 [] (by decide)⟩

/-- C10: the final `assert([d > 1 for d in depth_list])` tests a list, not
its elements: it passes exactly when the depth list is non-empty (so a
depth value of 1 or less is never rejected, witnessed by the passing
singleton `[1]`), and an all-`skip_connect` genotype produces an empty
depth list, making `genotype2subnetlist` raise `AssertionError`. -/
theorem genotype2subnetlist_weak_assert :
    (∀ depthList : List Nat,
      (pyTruthy (depthList.map (fun d => decide (1 < d))) = true ↔ depthList ≠ [])) ∧
    pyTruthy (([1] : List Nat).map (fun d => decide (1 < d))) = true ∧
    pyTruthy (([0, 1] : List Nat).map (fun d => decide (1 < d))) = true ∧
    subnetListOf ["XP3 3x3"] [1, 1, 1] =
      some ["skip_connect", "skip_connect", "skip_connect"] ∧
    depthListOf ["skip_connect", "skip_connect", "skip_connect"] = [] ∧
    genotype2subnetlist ["XP3 3x3"] [1, 1, 1] = none := by
  refine ⟨?_, by decide, by decide, by rfl, by rfl, by rfl⟩
  intro depthList
  cases depthList with
  | nil => simp [pyTruthy]
  | cons d rest => simp [pyTruthy]

/-! ## SearchNet parameter partition (contrib/zoph/zoph.py, lines 416-428)

The base `Module.get_parameters` mechanism lives outside src/, so the model
carries it abstractly: a `SearchNet` is represented by its parameter map
(values keyed by hierarchical names) together with the per-parameter
`need_grad` flags.  The zoph getters are embedded exactly: they filter the
full map on whether the key contains the string `"join"`. -/

/-- Modelled from the spec: the underlying `Module.get_parameters`
collaborator (not under src/) yields an ordered map from stable
hierarchical parameter keys to values, restricted to gradient-enabled
parameters when `grad_only` is set.  A `SearchNet` is abstracted by its
parameter entries and `need_grad` flags. -/
structure SearchNetM where
  entries : List (String × ℚ)
  needGradKey : String → Bool

/-- Modelled from the spec: `Module.get_parameters(grad_only)` returns all
parameters, or only those whose `need_grad` flag is set. -/
def get_parameters (net : SearchNetM) (gradOnly : Bool) : List (String × ℚ) :=
  if gradOnly then net.entries.filter (fun kv => net.needGradKey kv.1)
  else net.entries

/-- Embedding of `SearchNet.get_net_parameters` (zoph.py, lines 416-421):
keep the entries of `get_parameters(grad_only)` whose key does not contain
`"join"`. -/
def get_net_parameters (net : SearchNetM) (gradOnly : Bool) :
    List (String × ℚ) :=
  (get_parameters net gradOnly).filter (fun kv => !containsJoin kv.1)

/-- Embedding of `SearchNet.get_arch_parameters` (zoph.py, lines 423-428):
keep the entries of `get_parameters(grad_only)` whose key contains
`"join"`. -/
def get_arch_parameters (net : SearchNetM) (gradOnly : Bool) :
    List (String × ℚ) :=
  (get_parameters net gradOnly).filter (fun kv => containsJoin kv.1)

/-- C1: for every SearchNet and every `grad_only` flag, the network and
architecture parameter sets partition `get_parameters` totally and
disjointly: every entry of the full map belongs to exactly one side, their
union is the full map, their intersection is empty, and the architecture
side is exactly the set of entries whose key contains `"join"`. -/
theorem searchnet_parameter_partition (net : SearchNetM) (gradOnly : Bool) :
    (∀ kv, kv ∈ get_parameters net gradOnly ↔
      (kv ∈ get_net_parameters net gradOnly ∨
       kv ∈ get_arch_parameters net gradOnly)) ∧
    (∀ kv, kv ∈ get_net_parameters net gradOnly →
      kv ∉ get_arch_parameters net gradOnly) ∧
    (∀ kv, kv ∈ get_arch_parameters net gradOnly ↔
      kv ∈ get_parameters net gradOnly ∧ containsJoin kv.1 = true) ∧
    (∀ kv, kv ∈ get_net_parameters net gradOnly ↔
      kv ∈ get_parameters net gradOnly ∧ containsJoin kv.1 = false) := by
  refine ⟨?_, ?_, ?_, ?_⟩
  · intro kv
    constructor
    · intro hkv
      by_cases hj : containsJoin kv.1
      · exact Or.inr (List.mem_filter.mpr ⟨hkv, hj⟩)
      · exact Or.inl (List.mem_filter.mpr ⟨hkv, by simp [hj]⟩)
    · rintro (h | h)
      · exact (List.mem_filter.mp h).1
      · exact (List.mem_filter.mp h).1
  · intro kv hnet harch
    have h1 := (List.mem_filter.mp hnet).2
    have h2 := (List.mem_filter.mp harch).2
    simp only [Bool.not_eq_true'] at h1
    rw [h1] at h2
    cases h2
  · intro kv
    simp [get_arch_parameters, List.mem_filter]
  · intro kv
    simp only [get_net_parameters, List.mem_filter, Bool.not_eq_true']

/-! ## DartsSearcher bi-level step (runner/searcher/darts.py)

The optimizer, dataloader and autodiff collaborators live outside src/ and
are modelled from the spec: an optimizer holds the keys of the parameters
it was given by `set_parameters` and, on `update`, rewrites exactly those
parameters from their current value and gradient; `loss.forward`/
`loss.backward` write gradient buffers and never parameter values.  The
assignment of parameter sets to the two optimizers and the phase structure
of `train_on_batch`/`valid_on_batch` are embedded from darts.py. -/

/-- Mutable training state: parameter values and gradient buffers. -/
structure TrainState where
  params : List (String × ℚ)
  grads : List (String × ℚ)

/-- Modelled from the spec: the optimizer collaborator holds the keys of
the parameter mapping passed to `set_parameters`, plus an abstract update
rule computing a new value from key, old value and gradient. -/
structure Optimizer where
  keys : List String
  rule : String → ℚ → ℚ → ℚ

/-- Modelled from the spec: `optimizer.set_parameters(mapping)` hands the
optimizer exactly the keys of `mapping`. -/
def Optimizer.set_parameters (o : Optimizer) (mapping : List (String × ℚ)) :
    Optimizer :=
  { o with keys := mapping.map Prod.fst }

/-- Modelled from the spec: `optimizer.zero_grad()` clears the gradient
buffers of the optimizer's own parameters; values are untouched. -/
def Optimizer.zero_grad (o : Optimizer) (s : TrainState) : TrainState :=
  { s with grads := s.grads.map (fun kv =>
      if kv.1 ∈ o.keys then (kv.1, 0) else kv) }

/-- Modelled from the spec: `loss.forward` / `loss.backward` compute and
accumulate gradients (the resulting buffer contents enter abstractly as
`g`, absorbing the `accum` micro-batch loop); parameter values are read
but never written. -/
def backwardPass (g : List (String × ℚ)) (s : TrainState) : TrainState :=
  { s with grads := g }

/-- Modelled from the spec: `optimizer.update()` applies the update rule to
exactly the parameters the optimizer was given; all other parameter values
are untouched. -/
def Optimizer.update (o : Optimizer) (s : TrainState) : TrainState :=
  { s with params := s.params.map (fun kv =>
      if kv.1 ∈ o.keys then
        (kv.1, o.rule kv.1 kv.2 ((s.grads.lookup kv.1).getD 0)) else kv) }

/-- Embedding of `DartsSearcher.callback_on_start` (darts.py, lines 8-17):
the `train` optimizer is given `get_net_parameters(grad_only=True)` and the
`valid` optimizer `get_arch_parameters(grad_only=True)`. -/
def callback_on_start (net : SearchNetM) (optTrain optValid : Optimizer) :
    Optimizer × Optimizer :=
  (optTrain.set_parameters (get_net_parameters net true),
   optValid.set_parameters (get_arch_parameters net true))

/-- Embedding of `DartsSearcher.train_on_batch` (darts.py, lines 19-31):
`zero_grad`, the accumulation loop of forward/backward passes (absorbed
into the abstract buffer `g`), then `optimizer["train"].update()`. -/
def train_on_batch (optTrain : Optimizer) (g : List (String × ℚ))
    (s : TrainState) : TrainState :=
  optTrain.update (backwardPass g (optTrain.zero_grad s))

/-- Embedding of `DartsSearcher.valid_on_batch` (darts.py, lines 33-45). -/
def valid_on_batch (optValid : Optimizer) (g : List (String × ℚ))
    (s : TrainState) : TrainState :=
  optValid.update (backwardPass g (optValid.zero_grad s))


theorem lookup_map_guarded {β : Type} (l : List (String × β))
    (P : String → Prop) [DecidablePred P] (f : String × β → String × β)
    (hf : ∀ kv, (f kv).1 = kv.1) (k : String) (hk : ¬P k) :
    (l.map (fun kv => if P kv.1 then f kv else kv)).lookup k = l.lookup k := by
  induction l with
  | nil => rfl
  | cons kv rest ih =>
    rcases kv with ⟨a, b⟩
    by_cases hpa : P a
    · have hka : (k == a) = false := by
        refine beq_eq_false_iff_ne.mpr ?_
        intro he
        rw [he] at hk
        exact hk hpa
      have hstruct : f (a, b) = ((f (a, b)).1, (f (a, b)).2) := rfl
      simp only [List.map_cons, if_pos hpa]
      rw [hstruct, List.lookup_cons, hf (a, b)]
      simp only [hka, List.lookup_cons]
      exact ih
    · simp only [List.map_cons, if_neg hpa, List.lookup_cons]
      cases hcase : (k == a)
      · simpa [hcase] using ih
      · simp [hcase]

theorem net_keys_no_join (net : SearchNetM) (gradOnly : Bool) (k : String)
    (hk : k ∈ (get_net_parameters net gradOnly).map Prod.fst) :
    containsJoin k = false := by
  rcases List.mem_map.mp hk with ⟨kv, hkv, hfst⟩
  have h := (List.mem_filter.mp hkv).2
  rw [← hfst]
  simpa using h

theorem arch_keys_join (net : SearchNetM) (gradOnly : Bool) (k : String)
    (hk : k ∈ (get_arch_parameters net gradOnly).map Prod.fst) :
    containsJoin k = true := by
  rcases List.mem_map.mp hk with ⟨kv, hkv, hfst⟩
  have h := (List.mem_filter.mp hkv).2
  rw [← hfst]
  exact h

/-- C2: one DARTS train-phase step leaves every architecture parameter
(key containing `"join"`) unchanged, and one valid-phase step leaves every
network-weight parameter (key without `"join"`) unchanged, because
`callback_on_start` hands the `train` optimizer only
`get_net_parameters(grad_only=True)` and the `valid` optimizer only
`get_arch_parameters(grad_only=True)`, and an optimizer update touches
exactly the parameters it was given. -/
theorem darts_bilevel_isolation (net : SearchNetM) (optT0 optV0 : Optimizer)
    (s : TrainState) (g1 g2 : List (String × ℚ)) (k : String) :
    (containsJoin k = true →
      ((train_on_batch (callback_on_start net optT0 optV0).1 g1 s).params.lookup k
        = s.params.lookup k)) ∧
    (containsJoin k = false →
      ((valid_on_batch (callback_on_start net optT0 optV0).2 g2 s).params.lookup k
        = s.params.lookup k)) := by
  constructor
  · intro hjoin
    have hnotmem : ¬k ∈ (callback_on_start net optT0 optV0).1.keys := by
      intro hmem
      have := net_keys_no_join net true k hmem
      rw [hjoin] at this
      cases this
    simp only [train_on_batch, Optimizer.update, backwardPass, Optimizer.zero_grad]
    exact lookup_map_guarded s.params
      (fun key => key ∈ (callback_on_start net optT0 optV0).1.keys)
      (fun kv => (kv.1, (callback_on_start net optT0 optV0).1.rule kv.1 kv.2
        ((g1.lookup kv.1).getD 0)))
      (fun kv => rfl) k hnotmem
  · intro hjoin
    have hnotmem : ¬k ∈ (callback_on_start net optT0 optV0).2.keys := by
      intro hmem
      have := arch_keys_join net true k hmem
      rw [hjoin] at this
      cases this
    simp only [valid_on_batch, Optimizer.update, backwardPass, Optimizer.zero_grad]
    exact lookup_map_guarded s.params
      (fun key => key ∈ (callback_on_start net optT0 optV0).2.keys)
      (fun kv => (kv.1, (callback_on_start net optT0 optV0).2.rule kv.1 kv.2
        ((g2.lookup kv.1).getD 0)))
      (fun kv => rfl) k hnotmem

/-- A two-parameter SearchNet used to instantiate the bi-level theorem. -/
def sampleNet : SearchNetM :=
  ⟨[("stem/conv/W", 1), ("cell/block/join/alpha", 2)], fun _ => true⟩

/-- Training state matching `sampleNet`. -/
def sampleState : TrainState :=
  ⟨[("stem/conv/W", 1), ("cell/block/join/alpha", 2)],
   [("stem/conv/W", 0), ("cell/block/join/alpha", 0)]⟩

/-- An optimizer collaborator with a plain gradient-descent rule. -/
def sampleOpt : Optimizer :=
  ⟨[], fun _ v g => v - g⟩

theorem darts_bilevel_isolation_witness :
    containsJoin "cell/block/join/alpha" = true ∧
    (train_on_batch (callback_on_start sampleNet sampleOpt sampleOpt).1
        [("stem/conv/W", 3)] sampleState).params.lookup "cell/block/join/alpha"
      = sampleState.params.lookup "cell/block/join/alpha" :=
  ⟨by decide,
   (darts_bilevel_isolation sampleNet sampleOpt sampleOpt sampleState
     [("stem/conv/W", 3)] [] "cell/block/join/alpha").1 (by decide)⟩

/-! ## MixedOp (contrib/misc.py, lines 125-189)

A `MixedOp` holds an ordered list of operations (modelled as functions from
an input to a flat output tensor over `ℚ`), a mode, the architecture
parameter vector `alpha` (its `(n,1,1,1,1)` shape flattened), the active
index (`-1` at construction) and the per-operation `need_grad` flags.  In
`full` mode `call` stacks all branch outputs, multiplies by the
broadcasted `softmax(alpha)` and sums over the stacking axis; otherwise it
returns `ops[active](input)` under Python indexing (after only logging a
warning when `active < 0`).  `nnabla_nas.utils.sample` is not under src/
and is modelled from the spec. -/

/-- The three evaluation policies accepted by `MixedOp.__init__`; any
other mode string raises `ValueError` at construction, so the embedding
makes the modes a closed enumeration. -/
inductive OpMode where
  | full
  | sample
  | max
deriving DecidableEq

/-- State of a `MixedOp` over inputs of type `α`: the wrapped operations,
the selection mode, the active index (`-1` = uninitialized), the flat
architecture-parameter vector and the per-operation `need_grad` flags. -/
structure MixedOp (α : Type) where
  ops : List (α → List ℚ)
  mode : OpMode
  active : Int
  alpha : List ℚ
  needGrad : List Bool

/-- Embedding of `MixedOp.__init__` (misc.py, lines 140-156): the active
index starts at `-1`, and a missing `alpha` is allocated zero-initialized
with one scalar per operation. -/
def MixedOp.make {α : Type} (operators : List (α → List ℚ)) (mode : OpMode)
    (alpha : Option (List ℚ)) : MixedOp α :=
  { ops := operators
    mode := mode
    active := -1
    alpha := alpha.getD (List.replicate operators.length 0)
    needGrad := List.replicate operators.length true }

/-- `F.stack` of the branch outputs along a new leading axis. -/
def stackOutputs {α : Type} (ops : List (α → List ℚ)) (input : α) :
    List (List ℚ) :=
  ops.map (fun op => op input)

/-- `F.mul2` of a stacked tensor with a `(n,1,1,1,1)`-shaped weight vector:
weight `i` broadcasts over the whole `i`-th slice. -/
def mul2Bcast (ws : List ℚ) (ts : List (List ℚ)) : List (List ℚ) :=
  List.zipWith (fun w t => t.map (fun x => w * x)) ws ts

/-- `F.sum(out, axis=0)`: elementwise sum of the slices of a stacked
tensor. -/
def sumAxis0 : List (List ℚ) → List ℚ
  | [] => []
  | [t] => t
  | t :: ts => List.zipWith (fun a b => a + b) t (sumAxis0 ts)

/-- Embedding of `MixedOp.call` (misc.py, lines 158-168).  In `full` mode
the softmax-weighted stack is summed; otherwise the call dispatches to
`ops[active]` with Python indexing (the `active < 0` case only logs a
warning and proceeds, so `-1` silently resolves to the last operation);
an index outside `[-n, n)` is an `IndexError`, embedded as `none`. -/
def MixedOp.call {α : Type} (e : ℚ → ℚ) (m : MixedOp α) (input : α) :
    Option (List ℚ) :=
  match m.mode with
  | OpMode.full =>
      some (sumAxis0 (mul2Bcast (softmaxWith e m.alpha)
        (stackOutputs m.ops input)))
  | _ => (pyGet m.ops m.active).map (fun op => op input)

/-- First index of the maximal element (`np.argmax` tie-breaking). -/
def argmaxIdx : List ℚ → Nat
  | [] => 0
  | x :: xs =>
    let j := argmaxIdx xs
    if (xs.getD j 0) > x ∧ xs ≠ [] then j + 1 else 0

/-- Modelled from the spec: `nnabla_nas.utils.sample(pvals, mode)` (not
under src/) returns the arg-max index of `pvals` in `max` mode and an
index drawn proportionally to `pvals` in `sample` mode; the draw itself is
probabilistic and enters the embedding as the oracle argument `draw`. -/
def utSample (pvals : List ℚ) (mode : OpMode) (draw : Nat) : Nat :=
  match mode with
  | OpMode.max => argmaxIdx pvals
  | _ => draw

/-- Embedding of `MixedOp._update_active_idx` (misc.py, lines 170-179):
recompute `probs = softmax(alpha)`, select the new active index through
`ut.sample`, and set `op.need_grad = (active == i)` for every operation. -/
def update_active_idx {α : Type} (e : ℚ → ℚ) (draw : Nat) (m : MixedOp α) :
    MixedOp α :=
  let probs := softmaxWith e m.alpha
  let act := utSample probs m.mode draw
  { m with
    active := (act : Int)
    needGrad := (List.range m.ops.length).map (fun i => decide (act = i)) }

/-- Embedding of `MixedOp._update_alpha_grad` (misc.py, lines 181-186):
`probs = softmax(alpha)`, `probs[active] -= 1`, and the gradient buffer of
`alpha` is overwritten with `-probs` (the reshape to alpha's
`(n,1,1,1,1)` shape is the identity on the flattened vector); a numpy
index outside `[-n, n)` is an `IndexError`, embedded as `none`. -/
def update_alpha_grad {α : Type} (e : ℚ → ℚ) (m : MixedOp α) :
    Option (List ℚ) :=
  let probs := softmaxWith e m.alpha
  match pyIndex probs.length m.active with
  | none => none
  | some j => some ((probs.set j (probs.getD j 0 - 1)).map (fun x => -x))

theorem pyIndex_ofNat (len k : Nat) (hk : k < len) :
    pyIndex len (k : Int) = some k := by
  have h0 : ¬((k : Int) < 0) := by omega
  have h1 : (0 : Int) ≤ (k : Int) := by omega
  have h2 : (k : Int) < (len : Int) := by omega
  simp [pyIndex, h0, h1, h2]

theorem pyGet_ofNat {α : Type} (l : List α) (k : Nat) (hk : k < l.length) :
    pyGet l (k : Int) = l[k]? := by
  rw [pyGet, pyIndex_ofNat l.length k hk]

theorem pyGet_neg_one {α : Type} (l : List α) (h : l ≠ []) :
    pyGet l (-1) = some (l.getLast h) := by
  have hlen : 1 ≤ l.length := List.length_pos.mpr h
  have hidx : pyIndex l.length (-1) = some (l.length - 1) := by
    have h0 : (-1 : Int) < 0 := by omega
    have h1 : (0 : Int) ≤ -1 + l.length := by omega
    have h2 : (-1 : Int) + l.length < l.length := by omega
    have h3 : ((-1 : Int) + l.length).toNat = l.length - 1 := by omega
    simp [pyIndex, h0, h1, h2, h3]
  have hget : l[l.length - 1]? = some (l.getLast h) := by
    rw [List.getLast_eq_getElem]
    exact List.getElem?_eq_getElem (by omega)
  simp [pyGet, hidx, hget]

/-- C5: for every MixedOp whose active index is a valid position `k`,
`_update_alpha_grad` overwrites the gradient buffer of `alpha` with
exactly `-(softmax(alpha) - one_hot(k))`; the result is a function of
`alpha` and `k` alone, independent of any downstream loss or reward. -/
theorem mixedop_alpha_grad {α : Type} (e : ℚ → ℚ) (m : MixedOp α) (k : Nat)
    (hact : m.active = (k : Int)) (hk : k < m.alpha.length) :
    ∃ g, update_alpha_grad e m = some g ∧ g.length = m.alpha.length ∧
      ∀ i, i < m.alpha.length →
        g.getD i 0 =
          -((softmaxWith e m.alpha).getD i 0 - if i = k then 1 else 0) := by
  have hplen : (softmaxWith e m.alpha).length = m.alpha.length :=
    softmaxWith_length e m.alpha
  have hkp : k < (softmaxWith e m.alpha).length := by rw [hplen]; exact hk
  refine ⟨((softmaxWith e m.alpha).set k
    ((softmaxWith e m.alpha).getD k 0 - 1)).map (fun x => -x), ?_, ?_, ?_⟩
  · rw [update_alpha_grad, hact, pyIndex_ofNat _ k hkp]
  · simp [hplen]
  · intro i hi
    have hip : i < (softmaxWith e m.alpha).length := by rw [hplen]; exact hi
    by_cases hik : i = k
    · subst hik
      rw [List.getD_eq_getElem _ 0 (by simpa using hip)]
      rw [List.getElem_map]
      rw [List.getElem_set_self]
      simp
    · rw [List.getD_eq_getElem _ 0 (by simpa using hip)]
      rw [List.getElem_map]
      rw [List.getElem_set_ne (show k ≠ i by omega)]
      rw [if_neg hik]
      rw [List.getD_eq_getElem _ 0 hip]
      ring

theorem mixedop_alpha_grad_witness :
    ((MixedOp.make (α := Unit) [fun _ => [1], fun _ => [2]] OpMode.sample
        (some [0, 0])).active = ((0 : Nat) : Int) → False) ∨
    (∃ g, update_alpha_grad (fun _ => 1)
        { MixedOp.make (α := Unit) [fun _ => [1], fun _ => [2]] OpMode.sample
            (some [0, 0]) with active := ((0 : Nat) : Int) } = some g ∧
      g.length = 2 ∧
      ∀ i, i < 2 → g.getD i 0 =
        -((softmaxWith (fun _ => 1) [0, 0]).getD i 0 -
          if i = 0 then 1 else 0)) := by
  exact Or.inr (mixedop_alpha_grad (fun _ => 1)
    { MixedOp.make (α := Unit) [fun _ => [1], fun _ => [2]] OpMode.sample
        (some [0, 0]) with active := ((0 : Nat) : Int) } 0 rfl (by decide))

theorem call_nonfull {α : Type} (e : ℚ → ℚ) (m : MixedOp α) (input : α)
    (hmode : m.mode ≠ OpMode.full) :
    MixedOp.call e m input = (pyGet m.ops m.active).map (fun op => op input) := by
  obtain ⟨ops, mode, act, alpha, ng⟩ := m
  cases mode with
  | full => exact absurd rfl hmode
  | sample => rfl
  | max => rfl

/-- C7 counterexample: a freshly constructed sample-mode MixedOp (active
index still `-1`) does not fail on forward: `call` produces an output,
namely the output of the last operation in the list, because Python index
`-1` resolves to the final element after the warning is logged. -/
theorem mixedop_uninitialized_returns_output :
    MixedOp.call (fun x => x)
      (MixedOp.make (α := Unit) [fun _ => [1], fun _ => [2]] OpMode.sample none)
      () = some [2] ∧
    MixedOp.call (fun x => x)
      (MixedOp.make (α := Unit) [fun _ => [1], fun _ => [2]] OpMode.sample none)
      () ≠ none := by
  constructor
  · rfl
  · intro h
    cases h

/-- C7 (amended): in `sample`/`max` mode with an uninitialized active index
(`-1`), `MixedOp.call` does not raise a selection-state error: it only
logs a warning and returns the output of the operation at Python index
`-1`, i.e. the last operation in the list. -/
theorem mixedop_call_uninitialized {α : Type} (e : ℚ → ℚ) (m : MixedOp α)
    (input : α) (hmode : m.mode ≠ OpMode.full) (hact : m.active = -1)
    (hops : m.ops ≠ []) :
    MixedOp.call e m input = some (m.ops.getLast hops input) := by
  rw [call_nonfull e m input hmode, hact, pyGet_neg_one m.ops hops]
  rfl

theorem mixedop_call_uninitialized_witness :
    MixedOp.call (fun x => x)
      (MixedOp.make (α := Unit) [fun _ => [3], fun _ => [4]] OpMode.max none)
      () = some (((MixedOp.make (α := Unit) [fun _ => [3], fun _ => [4]]
        OpMode.max none).ops.getLast (by
          intro h
          cases h)) ()) :=
  mixedop_call_uninitialized (fun x => x)
    (MixedOp.make (α := Unit) [fun _ => [3], fun _ => [4]] OpMode.max none)
    () (by decide) rfl (by
      intro h
      cases h)

theorem argmaxIdx_lt_length (l : List ℚ) (h : l ≠ []) :
    argmaxIdx l < l.length := by
  induction l with
  | nil => exact absurd rfl h
  | cons x xs ih =>
    simp only [argmaxIdx]
    by_cases hxs : xs = []
    · subst hxs
      simp
    · split
      · have := ih hxs
        simp only [List.length_cons]
        omega
      · simp only [List.length_cons]
        omega

theorem count_map_range (n a : Nat) :
    ((List.range n).map (fun i => decide (a = i))).count true =
      if a < n then 1 else 0 := by
  induction n with
  | zero => simp
  | succ n ih =>
    rw [List.range_succ, List.map_append, List.count_append, ih]
    by_cases han : a = n
    · rw [han]
      simp
    · have h1 : (decide (a = n)) = false := by simp [han]
      simp only [List.map_cons, List.map_nil, h1]
      have h2 : ([false] : List Bool).count true = 0 := by decide
      rw [h2]
      have h4 : a < n ↔ a < n + 1 := by omega
      split_ifs with hc1 hc2 hc3 <;> omega

/-- C1-C4 helper: the new active index picked by `_update_active_idx` is a
valid operation index whenever the draw oracle is in range. -/
theorem utSample_lt {α : Type} (e : ℚ → ℚ) (draw : Nat) (m : MixedOp α)
    (hmode : m.mode ≠ OpMode.full) (hlen : m.alpha.length = m.ops.length)
    (hn : 0 < m.ops.length) (hdraw : draw < m.ops.length) :
    utSample (softmaxWith e m.alpha) m.mode draw < m.ops.length := by
  cases hm : m.mode with
  | full => exact absurd hm hmode
  | sample => simpa [utSample] using hdraw
  | max =>
    have hne : softmaxWith e m.alpha ≠ [] := by
      intro hnil
      have := softmaxWith_length e m.alpha
      rw [hnil] at this
      simp at this
      omega
    have h1 := argmaxIdx_lt_length (softmaxWith e m.alpha) hne
    rw [softmaxWith_length, hlen] at h1
    simpa [utSample] using h1

/-- C4: in `sample`/`max` mode, `_update_active_idx` selects a new active
index (the arg-max of `softmax(alpha)` in `max` mode, the proportional
draw supplied by the sampling oracle in `sample` mode), sets exactly the
selected operation trainable — `need_grad` is `True` iff the index equals
the new active index, and exactly one flag is `True` — and a subsequent
forward returns exactly the active branch's output. -/
theorem mixedop_single_path {α : Type} (e : ℚ → ℚ) (draw : Nat)
    (m : MixedOp α) (input : α)
    (hmode : m.mode ≠ OpMode.full)
    (hlen : m.alpha.length = m.ops.length)
    (hn : 0 < m.ops.length)
    (hdraw : draw < m.ops.length) :
    ∃ act : Nat,
      act = utSample (softmaxWith e m.alpha) m.mode draw ∧
      (update_active_idx e draw m).active = (act : Int) ∧
      (∀ i, i < m.ops.length →
        ((update_active_idx e draw m).needGrad.getD i false = true ↔ i = act)) ∧
      (update_active_idx e draw m).needGrad.count true = 1 ∧
      (m.mode = OpMode.max → act = argmaxIdx (softmaxWith e m.alpha)) ∧
      (m.mode = OpMode.sample → act = draw) ∧
      act < m.ops.length ∧
      MixedOp.call e (update_active_idx e draw m) input =
        some ((m.ops.getD act (fun _ => [])) input) := by
  have hact_lt := utSample_lt e draw m hmode hlen hn hdraw
  refine ⟨utSample (softmaxWith e m.alpha) m.mode draw,
    rfl, rfl, ?_, ?_, ?_, ?_, hact_lt, ?_⟩
  · intro i hi
    have hng : (update_active_idx e draw m).needGrad =
        (List.range m.ops.length).map
          (fun i => decide (utSample (softmaxWith e m.alpha) m.mode draw = i)) :=
      rfl
    rw [hng]
    have hi2 : i < ((List.range m.ops.length).map
        (fun i => decide (utSample (softmaxWith e m.alpha) m.mode draw = i))).length := by
      simpa using hi
    rw [List.getD_eq_getElem _ _ hi2, List.getElem_map, List.getElem_range]
    simp [eq_comm]
  · have hng : (update_active_idx e draw m).needGrad =
        (List.range m.ops.length).map
          (fun i => decide (utSample (softmaxWith e m.alpha) m.mode draw = i)) :=
      rfl
    rw [hng, count_map_range, if_pos hact_lt]
  · intro hm
    simp [utSample, hm]
  · intro hm
    simp [utSample, hm]
  · rw [call_nonfull e (update_active_idx e draw m) input hmode]
    show (pyGet m.ops ((utSample (softmaxWith e m.alpha) m.mode draw : Nat) : Int)).map
      (fun op => op input) = _
    rw [pyGet_ofNat m.ops _ hact_lt, List.getElem?_eq_getElem hact_lt]
    rw [List.getD_eq_getElem _ _ hact_lt]
    rfl

/-- A concrete two-branch max-mode MixedOp for instantiating theorems. -/
def sampleMixedOp : MixedOp Unit :=
  MixedOp.make [fun _ => [1], fun _ => [2]] OpMode.max (some [0, 1])

theorem mixedop_single_path_witness :
    sampleMixedOp.mode ≠ OpMode.full ∧
    sampleMixedOp.alpha.length = sampleMixedOp.ops.length ∧
    0 < sampleMixedOp.ops.length ∧
    (∃ act : Nat,
      act = utSample (softmaxWith (fun x => x + 1) sampleMixedOp.alpha)
        sampleMixedOp.mode 0 ∧
      (update_active_idx (fun x => x + 1) 0 sampleMixedOp).active = (act : Int) ∧
      (∀ i, i < sampleMixedOp.ops.length →
        ((update_active_idx (fun x => x + 1) 0 sampleMixedOp).needGrad.getD i
          false = true ↔ i = act)) ∧
      (update_active_idx (fun x => x + 1) 0 sampleMixedOp).needGrad.count true
        = 1 ∧
      (sampleMixedOp.mode = OpMode.max →
        act = argmaxIdx (softmaxWith (fun x => x + 1) sampleMixedOp.alpha)) ∧
      (sampleMixedOp.mode = OpMode.sample → act = 0) ∧
      act < sampleMixedOp.ops.length ∧
      MixedOp.call (fun x => x + 1)
          (update_active_idx (fun x => x + 1) 0 sampleMixedOp) () =
        some ((sampleMixedOp.ops.getD act (fun _ => [])) ())) :=
  ⟨by decide, rfl, by decide,
    mixedop_single_path (fun x => x + 1) 0 sampleMixedOp ()
      (by decide) rfl (by decide) (by decide)⟩

theorem zipWith_add_getD (a b : List ℚ) (j : Nat)
    (ha : j < a.length) (hb : j < b.length) :
    (List.zipWith (fun x y => x + y) a b).getD j 0 =
      a.getD j 0 + b.getD j 0 := by
  induction a generalizing b j with
  | nil => simp at ha
  | cons x xs ih =>
    cases b with
    | nil => simp at hb
    | cons y ys =>
      cases j with
      | zero => simp
      | succ jj =>
        simp only [List.zipWith_cons_cons, List.getD_cons_succ]
        exact ih ys jj (by simpa using ha) (by simpa using hb)

theorem mul2Bcast_mem_length (L : Nat) :
    ∀ (ts : List (List ℚ)) (ws : List ℚ), (∀ t ∈ ts, t.length = L) →
      ∀ u ∈ mul2Bcast ws ts, u.length = L := by
  intro ts
  induction ts with
  | nil => intro ws _ u hu; simp [mul2Bcast] at hu
  | cons t rest ih =>
    intro ws hall u hu
    cases ws with
    | nil => simp [mul2Bcast] at hu
    | cons w ws2 =>
      simp only [mul2Bcast, List.zipWith_cons_cons] at hu
      rcases List.mem_cons.mp hu with hu | hu
      · rw [hu]
        simpa using hall t (by simp)
      · exact ih ws2 (fun v hv => hall v (by simp [hv])) u hu

theorem sumAxis0_length (L : Nat) :
    ∀ ts : List (List ℚ), ts ≠ [] → (∀ t ∈ ts, t.length = L) →
      (sumAxis0 ts).length = L := by
  intro ts
  induction ts with
  | nil => intro h; exact absurd rfl h
  | cons t rest ih =>
    intro _ hall
    cases rest with
    | nil => simpa [sumAxis0] using hall t (by simp)
    | cons t2 ts2 =>
      show (List.zipWith (fun a b => a + b) t (sumAxis0 (t2 :: ts2))).length = L
      rw [List.length_zipWith]
      have h1 : t.length = L := hall t (by simp)
      have h2 : (sumAxis0 (t2 :: ts2)).length = L :=
        ih (by simp) (fun u hu => hall u (by simp [hu]))
      rw [h1, h2, Nat.min_self]

theorem sumAxis0_mul2Bcast_getD (L : Nat) :
    ∀ (ts : List (List ℚ)) (ws : List ℚ) (j : Nat),
      ws.length = ts.length → (∀ t ∈ ts, t.length = L) → j < L →
      (sumAxis0 (mul2Bcast ws ts)).getD j 0 =
        ∑ i in Finset.range ts.length,
          ws.getD i 0 * (ts.getD i []).getD j 0 := by
  intro ts
  induction ts with
  | nil =>
    intro ws j hlen hall hj
    simp [mul2Bcast, sumAxis0]
  | cons t rest ih =>
    intro ws j hlen hall hj
    cases ws with
    | nil => simp at hlen
    | cons w ws2 =>
      have hlen2 : ws2.length = rest.length := by simpa using hlen
      have htL : t.length = L := hall t (by simp)
      have hrest : ∀ u ∈ rest, u.length = L := fun u hu => hall u (by simp [hu])
      have hhead : ((t.map (fun x => w * x)).getD j 0) = w * t.getD j 0 := by
        rw [List.getD_eq_getElem _ _ (by simpa [htL] using hj),
          List.getElem_map, List.getD_eq_getElem _ _ (by omega)]
      cases rest with
      | nil =>
        cases ws2 with
        | nil =>
          simp only [mul2Bcast, List.zipWith_cons_cons, List.zipWith_nil_right]
          show (sumAxis0 [t.map (fun x => w * x)]).getD j 0 = _
          rw [show sumAxis0 [t.map (fun x => w * x)] = t.map (fun x => w * x) from rfl]
          rw [hhead]
          simp
        | cons w2 ws3 => simp at hlen2
      | cons t2 ts2 =>
        cases ws2 with
        | nil => simp at hlen2
        | cons w2 ws3 =>
          simp only [mul2Bcast, List.zipWith_cons_cons]
          show (List.zipWith (fun a b => a + b) (t.map (fun x => w * x))
            (sumAxis0 ((t2.map (fun x => w2 * x)) ::
              List.zipWith (fun w t => t.map (fun x => w * x)) ws3 ts2))).getD j 0 = _
          have htail := ih (w2 :: ws3) j hlen2 hrest hj
          simp only [mul2Bcast, List.zipWith_cons_cons] at htail
          have hlen_tail : (sumAxis0 ((t2.map (fun x => w2 * x)) ::
              List.zipWith (fun w t => t.map (fun x => w * x)) ws3 ts2)).length = L := by
            apply sumAxis0_length L
            · simp
            · intro u hu
              have := mul2Bcast_mem_length L (t2 :: ts2) (w2 :: ws3) hrest
              apply this
              simpa [mul2Bcast, List.zipWith_cons_cons] using hu
          rw [zipWith_add_getD _ _ j (by simpa [htL] using hj) (by omega)]
          rw [hhead, htail]
          simp only [List.length_cons]
          conv_rhs => rw [Finset.sum_range_succ']
          simp only [List.getD_cons_succ, List.getD_cons_zero]
          ring

/-- C3: in `full` mode, `MixedOp.call` computes all `N` branches, weights
the stacked outputs by the broadcast `softmax(alpha)` and sums over the
stacking axis, so every component of the output equals the sum over all
branches of `softmax(alpha)[i]` times the `i`-th operation's output. -/
theorem mixedop_full_mixture {α : Type} (e : ℚ → ℚ) (m : MixedOp α)
    (input : α) (L : Nat)
    (hmode : m.mode = OpMode.full)
    (hlen : m.alpha.length = m.ops.length)
    (hL : ∀ op ∈ m.ops, (op input).length = L) :
    ∃ out, MixedOp.call e m input = some out ∧
      ∀ j, j < L → out.getD j 0 =
        ∑ i in Finset.range m.ops.length,
          (softmaxWith e m.alpha).getD i 0 *
            ((m.ops.getD i (fun _ => [])) input).getD j 0 := by
  obtain ⟨ops, mode, act, alpha, ng⟩ := m
  simp only at hmode hlen hL
  subst hmode
  refine ⟨sumAxis0 (mul2Bcast (softmaxWith e alpha) (stackOutputs ops input)),
    rfl, ?_⟩
  intro j hj
  have hts : ∀ t ∈ stackOutputs ops input, t.length = L := by
    intro t ht
    rcases List.mem_map.mp ht with ⟨op, hop, hrw⟩
    rw [← hrw]
    exact hL op hop
  have hws : (softmaxWith e alpha).length = (stackOutputs ops input).length := by
    simp [softmaxWith_length, stackOutputs, hlen]
  rw [sumAxis0_mul2Bcast_getD L (stackOutputs ops input)
    (softmaxWith e alpha) j hws hts hj]
  have hrange : (stackOutputs ops input).length = ops.length := by
    simp [stackOutputs]
  rw [hrange]
  apply Finset.sum_congr rfl
  intro i hi
  have hi2 : i < ops.length := Finset.mem_range.mp hi
  congr 1
  have hlen2 : i < (List.map (fun op => op input) ops).length := by
    simpa using hi2
  have h1 : (stackOutputs ops input).getD i [] = (ops.get ⟨i, hi2⟩) input := by
    show (List.map (fun op => op input) ops).getD i [] = _
    rw [List.getD_eq_getElem _ _ hlen2]
    simp
  have h2 : ops.getD i (fun _ => ([] : List ℚ)) = ops.get ⟨i, hi2⟩ := by
    rw [List.getD_eq_getElem _ _ hi2]
    simp
  rw [h1, h2]

theorem mixedop_full_mixture_witness :
    (MixedOp.make (α := Unit) [fun _ => [1, 2], fun _ => [3, 4]] OpMode.full
      (some [0, 0])).mode = OpMode.full ∧
    (∃ out, MixedOp.call (fun _ => 1)
        (MixedOp.make (α := Unit) [fun _ => [1, 2], fun _ => [3, 4]]
          OpMode.full (some [0, 0])) () = some out ∧
      ∀ j, j < 2 → out.getD j 0 =
        ∑ i in Finset.range (MixedOp.make (α := Unit)
            [fun _ => ([1, 2] : List ℚ), fun _ => [3, 4]] OpMode.full
            (some [0, 0])).ops.length,
          (softmaxWith (fun _ => 1) (MixedOp.make (α := Unit)
            [fun _ => ([1, 2] : List ℚ), fun _ => [3, 4]] OpMode.full
            (some [0, 0])).alpha).getD i 0 *
          (((MixedOp.make (α := Unit) [fun _ => ([1, 2] : List ℚ),
            fun _ => [3, 4]] OpMode.full (some [0, 0])).ops.getD i
              (fun _ => [])) ()).getD j 0) :=
  ⟨rfl, mixedop_full_mixture (fun _ => 1)
    (MixedOp.make (α := Unit) [fun _ => [1, 2], fun _ => [3, 4]] OpMode.full
      (some [0, 0])) () 2 rfl rfl (by
        intro op hop
        rcases List.mem_cons.mp hop with h | h
        · rw [h]
          rfl
        · rcases List.mem_cons.mp h with h2 | h2
          · rw [h2]
            rfl
          · cases h2)⟩

/-! ## SearchNet cell wiring (contrib/zoph/zoph.py, lines 281-367)

`SearchNet.__init__` builds its graph by appending six stem modules
(Conv, BN, ReLU, Conv, BN, ReLU), then the cells, then the output head
(Conv, BN, ReLU, GlobalAvgPool, Collapse).  The parents of the cells are
taken positionally: `[self[3], self[6]]` for cell 0, `[self[6], self[7]]`
for cell 1 and `self[-2:]` for every later cell.  The `smo.Graph`
container itself is not under src/; for `self[6]` to exist when cell 0 is
constructed, the graph's module sequence must hold one module ahead of
the six appended stem modules, which matches registering the `Input`
node (created first, `self._input`) at position 0.  Each module is
represented by the list of positions of its parents. -/

/-- Modelled from the spec: the `smo.Graph` module sequence (not under
src/), beginning with the `Input` node at position 0 followed by the six
appended stem modules of zoph.py lines 296-320; entry `k` is the list of
parent positions of module `k`.  Position 3 is the first stem ReLU (the
first stem output) and position 6 the second stem ReLU (the second stem
output). -/
def stemGraph : List (List Nat) :=
  [[], [0], [1], [2], [3], [4], [5]]

/-- The cell loop of zoph.py lines 337-347: each iteration appends one
cell whose parents are `self[-2:]`, the two most recently appended
modules. -/
def addLookBack2 : Nat → List (List Nat) → List (List Nat)
  | 0, acc => acc
  | k + 1, acc => addLookBack2 k (acc ++ [[acc.length - 2, acc.length - 1]])

/-- Cell portion of the SearchNet graph: the stem, then cell 0 with
parents `[self[3], self[6]]` (zoph.py line 323), cell 1 with parents
`[self[6], self[7]]` (line 330), then `nCells - 2` look-back-2 cells. -/
def searchNetCellsGraph (nCells : Nat) : List (List Nat) :=
  addLookBack2 (nCells - 2) (stemGraph ++ [[3, 6]] ++ [[6, 7]])

/-- The full SearchNet graph: cells followed by the output head (Conv,
BN, ReLU, GlobalAvgPool, Collapse of zoph.py lines 350-367), each
consuming `self[-1]`. -/
def searchNetGraph (nCells : Nat) : List (List Nat) :=
  let cellsPart := searchNetCellsGraph nCells
  cellsPart ++ [[cellsPart.length - 1], [cellsPart.length],
    [cellsPart.length + 1], [cellsPart.length + 2], [cellsPart.length + 3]]

/-- Position of cell `i` in the SearchNet module sequence: the input node
and six stem modules precede the cells. -/
def cellIndex (i : Nat) : Nat := 7 + i

theorem addLookBack2_length : ∀ (k : Nat) (acc : List (List Nat)),
    (addLookBack2 k acc).length = acc.length + k := by
  intro k
  induction k with
  | zero => intro acc; rfl
  | succ k ih =>
    intro acc
    show (addLookBack2 k (acc ++ [[acc.length - 2, acc.length - 1]])).length = _
    rw [ih]
    simp
    omega

theorem addLookBack2_getElem_lt : ∀ (k : Nat) (acc : List (List Nat))
    (j : Nat), j < acc.length → (addLookBack2 k acc)[j]? = acc[j]? := by
  intro k
  induction k with
  | zero => intro acc j _; rfl
  | succ k ih =>
    intro acc j hj
    show (addLookBack2 k (acc ++ [[acc.length - 2, acc.length - 1]]))[j]? = _
    rw [ih _ j (by simp; omega)]
    rw [List.getElem?_append, if_pos hj]

theorem addLookBack2_getElem_new : ∀ (k : Nat) (acc : List (List Nat))
    (j : Nat), j < k → (addLookBack2 k acc)[acc.length + j]? =
      some [acc.length + j - 2, acc.length + j - 1] := by
  intro k
  induction k with
  | zero => intro acc j hj; omega
  | succ k ih =>
    intro acc j hj
    show (addLookBack2 k (acc ++ [[acc.length - 2, acc.length - 1]]))[acc.length + j]? = _
    cases j with
    | zero =>
      rw [addLookBack2_getElem_lt k _ _ (by simp)]
      rw [List.getElem?_append_right (by simp)]
      simp
    | succ j2 =>
      have hrec := ih (acc ++ [[acc.length - 2, acc.length - 1]]) j2 (by omega)
      have hlen : (acc ++ [[acc.length - 2, acc.length - 1]]).length =
          acc.length + 1 := by simp
      rw [hlen] at hrec
      have hidx : acc.length + 1 + j2 = acc.length + (j2 + 1) := by omega
      rw [hidx] at hrec
      rw [hrec]

/-- C9 counterexample: in the default three-cell SearchNet, cell 1's
parents are positions `[6, 7]` — the second stem output and cell 0 — not
the two stem outputs `[3, 6]` that cell 0 consumes, so the first two
cells do not both take the two stem outputs as parents. -/
theorem searchnet_cell1_not_stem_outputs :
    (searchNetGraph 3)[cellIndex 0]? = some [3, 6] ∧
    (searchNetGraph 3)[cellIndex 1]? = some [6, 7] ∧
    ¬((searchNetGraph 3)[cellIndex 1]? = some [3, 6]) := by
  refine ⟨by decide, by decide, ?_⟩
  intro h
  have h2 : (searchNetGraph 3)[cellIndex 1]? = some [6, 7] := by decide
  rw [h2] at h
  cases h

/-- C9 (amended): for every SearchNet with `n ≥ 2` cells, cell 0 takes
the two stem outputs (positions 3 and 6) as parents, cell 1 takes the
second stem output and cell 0 (positions 6 and 7), and every cell
`i ≥ 2` takes exactly the two most recently appended cells, cells `i-2`
and `i-1`. -/
theorem searchnet_wiring (n : Nat) (hn : 2 ≤ n) :
    (searchNetGraph n)[cellIndex 0]? = some [3, 6] ∧
    (searchNetGraph n)[cellIndex 1]? = some [6, 7] ∧
    ∀ i, 2 ≤ i → i < n →
      (searchNetGraph n)[cellIndex i]? =
        some [cellIndex (i - 2), cellIndex (i - 1)] := by
  have hbase : (stemGraph ++ [[3, 6]] ++ [[6, 7]] : List (List Nat)).length = 9 :=
    rfl
  have hcells : (searchNetCellsGraph n).length = 9 + (n - 2) := by
    unfold searchNetCellsGraph
    rw [addLookBack2_length, hbase]
  have houter : ∀ j, j < (searchNetCellsGraph n).length →
      (searchNetGraph n)[j]? = (searchNetCellsGraph n)[j]? := by
    intro j hj
    show ((searchNetCellsGraph n) ++ _)[j]? = _
    rw [List.getElem?_append, if_pos hj]
  refine ⟨?_, ?_, ?_⟩
  · rw [houter (cellIndex 0) (by rw [hcells]; simp only [cellIndex]; omega)]
    unfold searchNetCellsGraph
    rw [addLookBack2_getElem_lt _ _ (cellIndex 0) (by rw [hbase]; simp [cellIndex])]
    rfl
  · rw [houter (cellIndex 1) (by rw [hcells]; simp only [cellIndex]; omega)]
    unfold searchNetCellsGraph
    rw [addLookBack2_getElem_lt _ _ (cellIndex 1) (by rw [hbase]; simp [cellIndex])]
    rfl
  · intro i h2i hin
    rw [houter (cellIndex i) (by rw [hcells]; simp only [cellIndex]; omega)]
    unfold searchNetCellsGraph
    have hidx : cellIndex i =
        (stemGraph ++ [[3, 6]] ++ [[6, 7]] : List (List Nat)).length + (i - 2) := by
      rw [hbase]
      simp only [cellIndex]
      omega
    rw [hidx]
    rw [addLookBack2_getElem_new (n - 2) _ (i - 2) (by omega)]
    rw [hbase]
    have e1 : 9 + (i - 2) - 2 = cellIndex (i - 2) := by
      simp only [cellIndex]
      omega
    have e2 : 9 + (i - 2) - 1 = cellIndex (i - 1) := by
      simp only [cellIndex]
      omega
    rw [e1, e2]

theorem searchnet_wiring_witness :
    2 ≤ 3 ∧ (searchNetGraph 3)[cellIndex 2]? =
      some [cellIndex 0, cellIndex 1] :=
  ⟨by decide, (searchnet_wiring 3 (by decide)).2.2 2 (by decide) (by decide)⟩

theorem searchnet_parameter_partition_witness :
    ("stem/conv/W", (1 : ℚ)) ∈ get_net_parameters sampleNet false ∧
    ("stem/conv/W", (1 : ℚ)) ∉ get_arch_parameters sampleNet false :=
  ⟨by decide,
   (searchnet_parameter_partition sampleNet false).2.1
     ("stem/conv/W", (1 : ℚ)) (by decide)⟩

end NnablaNas
